import Mathlib

/-!
Verification of the propositional-logic core (`core/src/ast.rs`,
`core/src/rewrite.rs`, `core/src/sat.rs`): formula AST, generic term
rewriting to CNF/DNF, clause extraction and the DPLL satisfiability
decision procedure.

Modelling conventions:
* `Rc<ASTNode>` sharing is irrelevant to values, so `AST` is the plain
  inductive tree; structural equality (`PartialEq`) is `DecidableEq`.
* Rust code that can panic (`unwrap`, `unreachable!`) is embedded as
  `Option`-valued, `none` standing for the panic.
* The two unbounded loops of the source (`rewrite_recursive`, whose
  recursion depth is not structurally bounded because it recurses into
  the freshly rewritten node, and `rewrite_recursive_hull`, the fixpoint
  loop) are embedded with an explicit fuel parameter; `none` on fuel
  exhaustion.  Sufficiency of the fuel chosen in `ASTNode.cnf` /
  `ASTNode.dnf` is proved (termination theorems below), so the embedding
  computes exactly what the source loop computes.
* Hash containers (`HashMap`, `HashSet`) are embedded as association
  lists / duplicate-free lists in insertion order.  Every result a claim
  relies on is independent of iteration order except the branching
  literal chosen by `choose_literal`, where the embedding fixes the
  insertion order as one possible run of the source.
-/

/-- `ASTNode` from `ast.rs`: `Variable(Ident) | Not | And | Or`.
`Ident = u32` is embedded as `Nat` (identifiers are only ever compared,
never subjected to arithmetic). -/
inductive ASTNode where
  | var : Nat → ASTNode
  | not : ASTNode → ASTNode
  | and : ASTNode → ASTNode → ASTNode
  | or : ASTNode → ASTNode → ASTNode
deriving DecidableEq

/-- `AST = Rc<ASTNode>`: sharing collapsed, same values. -/
abbrev AST := ASTNode

/-- Truth-value semantics of a formula under an assignment of the
variable identifiers.  (The source has no explicit evaluator; this is
the standard reading of `Variable/Not/And/Or` that the specification
quantifies over.) -/
def ASTNode.eval (t : AST) (env : Nat → Bool) : Bool :=
  match t with
  | .var i => env i
  | .not p => !(p.eval env)
  | .and p q => p.eval env && q.eval env
  | .or p q => p.eval env || q.eval env

/-- `RewriteRule` from `rewrite.rs`: a named pattern (`top`) and
replacement template (`bot`).  Pattern variables are ordinary `var`
nodes of the pattern. -/
structure RewriteRule where
  name : String
  top : AST
  bot : AST
deriving DecidableEq

/-- A matching, `HashMap<Ident, AST>` embedded as an association list;
`lookup` takes the first (most recently shadowed) binding. -/
abbrev Matching := List (Nat × AST)

/-- `HashMap::extend`: bindings of the second map override the first.
With first-match `List.lookup`, prepending `m2` gives exactly that. -/
def Matching.extend (m1 m2 : Matching) : Matching := m2 ++ m1

/-- `RewriteRule::matching(target, pattern)`: structural match of the
pattern against the whole target, binding every pattern `var` to the
corresponding target subtree; `none` is the `Err(RuleDoesNotApply)`
branch.  On duplicate pattern variables the right-hand binding
overwrites the left (Rust `extend`). -/
def RewriteRule.matching (target pattern : AST) : Option Matching :=
  match pattern, target with
  | .not templateP, .not p => RewriteRule.matching p templateP
  | .and templateP1 templateP2, .and p1 p2 => do
      let m1 ← RewriteRule.matching p1 templateP1
      let m2 ← RewriteRule.matching p2 templateP2
      pure (Matching.extend m1 m2)
  | .or templateP1 templateP2, .or p1 p2 => do
      let m1 ← RewriteRule.matching p1 templateP1
      let m2 ← RewriteRule.matching p2 templateP2
      pure (Matching.extend m1 m2)
  | .var templateIdent, t => some [(templateIdent, t)]
  | _, _ => none

/-- `RewriteRule::substitute`: rebuild the replacement template,
substituting each pattern variable by its bound subtree.  `none` is the
`matching.get(ident).unwrap()` panic on an unbound variable. -/
def RewriteRule.substitute (template : AST) (m : Matching) : Option AST :=
  match template with
  | .var ident => m.lookup ident
  | .not p => do pure (ASTNode.not (← RewriteRule.substitute p m))
  | .and p1 p2 => do
      pure (ASTNode.and (← RewriteRule.substitute p1 m) (← RewriteRule.substitute p2 m))
  | .or p1 p2 => do
      pure (ASTNode.or (← RewriteRule.substitute p1 m) (← RewriteRule.substitute p2 m))

/-- `RewriteRule::rewrite`: root-level match; on failure the target is
returned unchanged, on success the instantiated replacement. -/
def RewriteRule.rewrite (r : RewriteRule) (target : AST) : Option AST :=
  match RewriteRule.matching target r.top with
  | none => some target
  | some m => RewriteRule.substitute r.bot m

/-- `RewriteRuleset` from `rewrite.rs`: named, ordered rule list. -/
structure RewriteRuleset where
  name : String
  rules : List RewriteRule

/-- `RewriteRuleset::rewrite`: one pass, folding each rule output into
the next rule, at the root only. -/
def RewriteRuleset.rewrite (rs : RewriteRuleset) (target : AST) : Option AST :=
  rs.rules.foldl (fun acc r => acc.bind r.rewrite) (some target)

/-- `RewriteRuleset::rewrite_recursive`: apply the pass at the root,
then recurse into the children of the freshly rewritten node and
reassemble.  The recursion is on the rewritten node, hence not
structurally decreasing; `fuel` bounds the depth. -/
def RewriteRuleset.rewriteRecursive (rs : RewriteRuleset) : Nat → AST → Option AST
  | 0, _ => none
  | fuel + 1, target =>
    match rs.rewrite target with
    | none => none
    | some s =>
      match s with
      | .var i => some (.var i)
      | .not p => do pure (ASTNode.not (← rs.rewriteRecursive fuel p))
      | .and p1 p2 => do
          pure (ASTNode.and (← rs.rewriteRecursive fuel p1) (← rs.rewriteRecursive fuel p2))
      | .or p1 p2 => do
          pure (ASTNode.or (← rs.rewriteRecursive fuel p1) (← rs.rewriteRecursive fuel p2))

/-- `RewriteRuleset::rewrite_recursive_hull`: iterate
`rewrite_recursive` until the output is structurally equal to the
input.  `depth` is the per-iteration recursion budget, `fuel` the
iteration budget. -/
def RewriteRuleset.rewriteRecursiveHull (rs : RewriteRuleset) (depth : Nat) :
    Nat → AST → Option AST
  | 0, _ => none
  | fuel + 1, target =>
    match rs.rewriteRecursive depth target with
    | none => none
    | some new => if new = target then some target else rs.rewriteRecursiveHull depth fuel new

/-- Rule `NOT NOT x ⊢ x` (both rulesets). -/
def doubleNegationRule : RewriteRule :=
  ⟨"double negation elimination", .not (.not (.var 0)), .var 0⟩

/-- Rule `NOT (x OR y) ⊢ NOT x AND NOT y` (both rulesets). -/
def deMorganOrRule : RewriteRule :=
  ⟨"de morgans theorem for disjunction", .not (.or (.var 0) (.var 1)),
    .and (.not (.var 0)) (.not (.var 1))⟩

/-- Rule `NOT (x AND y) ⊢ NOT x OR NOT y` (DNF ruleset only — the CNF
ruleset in the source lists `deMorganOrRule` twice instead). -/
def deMorganAndRule : RewriteRule :=
  ⟨"de morgans theorem for conjunction", .not (.and (.var 0) (.var 1)),
    .or (.not (.var 0)) (.not (.var 1))⟩

/-- Rule `x OR (y AND z) ⊢ (x OR y) AND (x OR z)` (CNF ruleset). -/
def distribOrAndRule : RewriteRule :=
  ⟨"left-distributive property of disjunction over conjunction",
    .or (.var 0) (.and (.var 1) (.var 2)),
    .and (.or (.var 0) (.var 1)) (.or (.var 0) (.var 2))⟩

/-- Rule `x AND (y OR z) ⊢ (x AND y) OR (x AND z)` (DNF ruleset). -/
def distribAndOrRule : RewriteRule :=
  ⟨"left-distributive property of conjunction over disjunction",
    .and (.var 0) (.or (.var 1) (.var 2)),
    .or (.and (.var 0) (.var 1)) (.and (.var 0) (.var 2))⟩

/-- The ruleset built inside `AbstractSyntaxTree::cnf` in `ast.rs`.
Note: the source lists the De-Morgan-for-disjunction rule twice
(rules 2 and 3 are identical); there is no De-Morgan-for-conjunction
rule in it. -/
def cnfRuleset : RewriteRuleset :=
  ⟨"CNF conversion", [doubleNegationRule, deMorganOrRule, deMorganOrRule, distribOrAndRule]⟩

/-- The ruleset built inside `AbstractSyntaxTree::dnf` in `ast.rs`. -/
def dnfRuleset : RewriteRuleset :=
  ⟨"DNF conversion", [doubleNegationRule, deMorganOrRule, deMorganAndRule, distribAndOrRule]⟩

/-- Termination measure for the CNF ruleset: `var ↦ 3`,
`not t ↦ 2·t`, `and a b ↦ a+b+1`, `or a b ↦ a·b`.  Every rule of
`cnfRuleset` strictly decreases it (proved below). -/
def measureCNF : AST → Nat
  | .var _ => 3
  | .not p => 2 * measureCNF p
  | .and p q => measureCNF p + measureCNF q + 1
  | .or p q => measureCNF p * measureCNF q

/-- Termination measure for the DNF ruleset: `var ↦ 2`,
`not t ↦ 2^t`, `and a b ↦ a·b`, `or a b ↦ a+b+1`.  Every rule of
`dnfRuleset` strictly decreases it (proved below). -/
def measureDNF : AST → Nat
  | .var _ => 2
  | .not p => 2 ^ measureDNF p
  | .and p q => measureDNF p * measureDNF q
  | .or p q => measureDNF p + measureDNF q + 1

/-- `AbstractSyntaxTree::cnf`: drive `cnfRuleset` to a fixpoint.  The
fuel `measureCNF f + 1` is proved sufficient for both the recursion
depth and the number of loop iterations. -/
def ASTNode.cnf (f : AST) : Option AST :=
  cnfRuleset.rewriteRecursiveHull (measureCNF f + 1) (measureCNF f + 1) f

/-- `AbstractSyntaxTree::dnf`: drive `dnfRuleset` to a fixpoint. -/
def ASTNode.dnf (f : AST) : Option AST :=
  dnfRuleset.rewriteRecursiveHull (measureDNF f + 1) (measureDNF f + 1) f

/-- `Polarity` from `sat.rs`. -/
inductive Polarity where
  | positive : Polarity
  | negative : Polarity
deriving DecidableEq

/-- `Polarity::flip`. -/
def Polarity.flip : Polarity → Polarity
  | .positive => .negative
  | .negative => .positive

/-- `Literal` from `sat.rs`: a variable identifier with a polarity. -/
structure Literal where
  identifier : Nat
  polarity : Polarity
deriving DecidableEq

/-- `Literal::not`. -/
def Literal.not (l : Literal) : Literal := ⟨l.identifier, l.polarity.flip⟩

/-- `Clause`: `HashSet<Literal>` embedded as a duplicate-free list in
insertion order. -/
abbrev Clause := List Literal

/-- `HashSet::insert`: append if not already present. -/
def Clause.insertLit (c : Clause) (l : Literal) : Clause :=
  if l ∈ c then c else c ++ [l]

/-- `Clause::unit`. -/
def Clause.unit (l : Literal) : Clause := [l]

/-- `DPLLSolver::get_unit_clause`: first clause (in `Vec` order) with
exactly one literal, and that literal. -/
def getUnitClause (clauses : List Clause) : Option Literal :=
  (clauses.find? (fun c => c.length = 1)).bind (fun c => c.head?)

/-- `DPLLSolver::unit_propagate`: drop every clause containing the unit
literal, then remove its negation from the remaining clauses. -/
def unitPropagate (unit : Literal) (clauses : List Clause) : List Clause :=
  (clauses.filter (fun c => ¬ unit ∈ c)).map (fun c => c.filter (fun l => l ≠ unit.not))

/-- `DPLLSolver::unit_propagation`: propagate units to a fixed point;
fuel bounds the iterations (each propagation removes the found unit
clause, so `clauses.length + 1` always suffices at the call site). -/
def unitPropagation : Nat → List Clause → Option (List Clause)
  | 0, _ => none
  | fuel + 1, clauses =>
    match getUnitClause clauses with
    | none => some clauses
    | some unit => unitPropagation fuel (unitPropagate unit clauses)

/-- One `purity_table` update of `DPLLSolver::pure_literal_elimination`,
for one literal occurrence.  The table is keyed by the whole literal
(identifier and polarity), exactly as in the source, where the map key
is `Literal` — so the stored polarity always equals the polarity of the
literal looked up, and the purity flag can never become `false`. -/
def purityUpdate (table : List (Literal × Polarity × Bool)) (l : Literal) :
    List (Literal × Polarity × Bool) :=
  match table.lookup l with
  | some (_, false) => table
  | some (pol, _) =>
      table.map (fun e => if e.1 = l then (e.1, pol, pol = l.polarity) else e)
  | none => table ++ [(l, l.polarity, true)]

/-- The completed `purity_table`: fold over all clauses and literals in
order. -/
def purityTable (clauses : List Clause) : List (Literal × Polarity × Bool) :=
  clauses.foldl (fun tbl c => c.foldl purityUpdate tbl) []

/-- `DPLLSolver::pure_literal_elimination`: keep only the table entries
whose purity flag is set, then for each such literal `retain` exactly
the clauses that contain it (this is what the source does — it removes
the clauses *not* containing the literal). -/
def pureLiteralElimination (clauses : List Clause) : List Clause :=
  ((purityTable clauses).filter (fun e => e.2.2)).foldl
    (fun cs e => cs.filter (fun c => e.1 ∈ c)) clauses

/-- `DPLLSolver::choose_literal`: a literal of the first clause; the
embedding takes the first in insertion order (the source takes whatever
`HashSet` iteration yields first). -/
def chooseLiteral (clauses : List Clause) : Option Literal :=
  clauses.head?.bind (fun c => c.head?)

/-- `DPLLSolver::with_unit_clause`: push a fresh unit clause. -/
def withUnitClause (clauses : List Clause) (l : Literal) : List Clause :=
  clauses ++ [Clause.unit l]

/-- `DPLLSolver::dpll`: unit propagation, pure-literal elimination,
termination checks, then branch on a chosen literal (negated branch
first, `||` short-circuit).  `fuel` bounds the branching depth. -/
def dpll : Nat → List Clause → Option Bool
  | 0, _ => none
  | fuel + 1, clauses =>
    match unitPropagation (clauses.length + 1) clauses with
    | none => none
    | some cs =>
      let cs := pureLiteralElimination cs
      if cs.isEmpty then some true
      else if cs.any (fun c => c.isEmpty) then some false
      else
        match chooseLiteral cs with
        | none => none
        | some unit =>
          match dpll fuel (withUnitClause cs unit.not) with
          | none => none
          | some true => some true
          | some false => dpll fuel (withUnitClause cs unit)

/-- `generate_clause_from_subtree`, accumulator form of the source
explicit stack loop (for `Or(p1, p2)` the stack processes `p2` before
`p1`): `Variable` inserts a positive literal, `Not(Variable)` a
negative one, `Or` recurses; anything else is the `unreachable!()`
panic, embedded as `none`. -/
def generateClauseAux : AST → Clause → Option Clause
  | .var i, acc => some (acc.insertLit ⟨i, .positive⟩)
  | .not (.var i), acc => some (acc.insertLit ⟨i, .negative⟩)
  | .not _, _ => none
  | .and _ _, _ => none
  | .or p1 p2, acc => do generateClauseAux p1 (← generateClauseAux p2 acc)

/-- `generate_clause_from_subtree`. -/
def generateClauseFromSubtree (t : AST) : Option Clause := generateClauseAux t []

/-- `generate_clauses_from_tree`: split the top-level `And` chain into
conjuncts (the source stack emits the clauses of the right child before
those of the left child) and extract one clause from each. -/
def generateClausesFromTree : AST → Option (List Clause)
  | .and p1 p2 => do pure ((← generateClausesFromTree p2) ++ (← generateClausesFromTree p1))
  | t => do pure [← generateClauseFromSubtree t]

/-- `AbstractSyntaxTree::sat`: CNF conversion, clause extraction, DPLL.
The branching fuel (total literal count + clause count + 1) is a
defensive budget; every concrete run below stays far inside it. -/
def ASTNode.sat (f : AST) : Option Bool := do
  let g ← f.cnf
  let cs ← generateClausesFromTree g
  dpll ((cs.map List.length).sum + cs.length + 1) cs

/-! ### Reified per-rule step functions

For each concrete rule the Option-valued `RewriteRule.rewrite` is total;
these functions compute it, with a bridging lemma each (`cases` on the
target shape, every branch definitional). -/

/-- What `doubleNegationRule` does at the root. -/
def dneFn : AST → AST
  | .not (.not x) => x
  | t => t

/-- What `deMorganOrRule` does at the root. -/
def dmOrFn : AST → AST
  | .not (.or x y) => .and (.not x) (.not y)
  | t => t

/-- What `deMorganAndRule` does at the root. -/
def dmAndFn : AST → AST
  | .not (.and x y) => .or (.not x) (.not y)
  | t => t

/-- What `distribOrAndRule` does at the root. -/
def distribOrAndFn : AST → AST
  | .or x (.and y z) => .and (.or x y) (.or x z)
  | t => t

/-- What `distribAndOrRule` does at the root. -/
def distribAndOrFn : AST → AST
  | .and x (.or y z) => .or (.and x y) (.and x z)
  | t => t

theorem rewrite_dne (t : AST) : doubleNegationRule.rewrite t = some (dneFn t) := by
  cases t with
  | not p =>
    cases p <;>
      simp [RewriteRule.rewrite, doubleNegationRule, RewriteRule.matching,
        RewriteRule.substitute, Matching.extend, List.lookup, dneFn]
  | _ => rfl

theorem rewrite_dmOr (t : AST) : deMorganOrRule.rewrite t = some (dmOrFn t) := by
  cases t with
  | not p =>
    cases p <;>
      simp [RewriteRule.rewrite, deMorganOrRule, RewriteRule.matching,
        RewriteRule.substitute, Matching.extend, List.lookup, dmOrFn]
  | _ => rfl

theorem rewrite_dmAnd (t : AST) : deMorganAndRule.rewrite t = some (dmAndFn t) := by
  cases t with
  | not p =>
    cases p <;>
      simp [RewriteRule.rewrite, deMorganAndRule, RewriteRule.matching,
        RewriteRule.substitute, Matching.extend, List.lookup, dmAndFn]
  | _ => rfl

theorem rewrite_distribOrAnd (t : AST) :
    distribOrAndRule.rewrite t = some (distribOrAndFn t) := by
  cases t with
  | or p q =>
    cases q <;>
      simp [RewriteRule.rewrite, distribOrAndRule, RewriteRule.matching,
        RewriteRule.substitute, Matching.extend, List.lookup, distribOrAndFn]
  | _ => rfl

theorem rewrite_distribAndOr (t : AST) :
    distribAndOrRule.rewrite t = some (distribAndOrFn t) := by
  cases t with
  | and p q =>
    cases q <;>
      simp [RewriteRule.rewrite, distribAndOrRule, RewriteRule.matching,
        RewriteRule.substitute, Matching.extend, List.lookup, distribAndOrFn]
  | _ => rfl

/-- One root pass of the CNF ruleset (`rules` fold, in order; the
duplicated De Morgan rule appears twice). -/
def cnfPass (t : AST) : AST := distribOrAndFn (dmOrFn (dmOrFn (dneFn t)))

/-- One root pass of the DNF ruleset. -/
def dnfPass (t : AST) : AST := distribAndOrFn (dmAndFn (dmOrFn (dneFn t)))

theorem cnfRuleset_rewrite (t : AST) : cnfRuleset.rewrite t = some (cnfPass t) := by
  simp [RewriteRuleset.rewrite, cnfRuleset, List.foldl, rewrite_dne, rewrite_dmOr,
    rewrite_distribOrAnd, cnfPass]

theorem dnfRuleset_rewrite (t : AST) : dnfRuleset.rewrite t = some (dnfPass t) := by
  simp [RewriteRuleset.rewrite, dnfRuleset, List.foldl, rewrite_dne, rewrite_dmOr,
    rewrite_dmAnd, rewrite_distribAndOr, dnfPass]

/-! ### Measure facts -/

theorem measureCNF_pos (t : AST) : 3 ≤ measureCNF t := by
  induction t with
  | var i => simp [measureCNF]
  | not p ih => simp only [measureCNF]; omega
  | and p q ihp ihq => simp only [measureCNF]; omega
  | or p q ihp ihq =>
    simp only [measureCNF]
    calc 3 ≤ measureCNF p := ihp
    _ = measureCNF p * 1 := (Nat.mul_one _).symm
    _ ≤ measureCNF p * measureCNF q := Nat.mul_le_mul_left _ (by omega)

theorem measureDNF_pos (t : AST) : 2 ≤ measureDNF t := by
  induction t with
  | var i => simp [measureDNF]
  | not p ih =>
    simp only [measureDNF]
    calc 2 = 2 ^ 1 := rfl
    _ ≤ 2 ^ measureDNF p := Nat.pow_le_pow_right (by omega) (by omega)
  | and p q ihp ihq =>
    simp only [measureDNF]
    calc 2 ≤ measureDNF p := ihp
    _ = measureDNF p * 1 := (Nat.mul_one _).symm
    _ ≤ measureDNF p * measureDNF q := Nat.mul_le_mul_left _ (by omega)
  | or p q ihp ihq => simp only [measureDNF]; omega

/-- A root step either leaves the node unchanged or strictly decreases
the measure. -/
def StepOK (m : AST → Nat) (f : AST → AST) : Prop :=
  ∀ t, f t = t ∨ m (f t) < m t

theorem StepOK.le {m : AST → Nat} {f : AST → AST} (h : StepOK m f) (t : AST) :
    m (f t) ≤ m t := by
  rcases h t with h1 | h1
  · rw [h1]
  · omega

theorem StepOK.comp {m : AST → Nat} {f g : AST → AST} (hf : StepOK m f)
    (hg : StepOK m g) : StepOK m (fun t => g (f t)) := by
  intro t
  show g (f t) = t ∨ m (g (f t)) < m t
  rcases hf t with h1 | h1
  · rw [h1]
    exact hg t
  · have h2 := hg.le (f t)
    right
    omega

theorem stepOK_dneFn_CNF : StepOK measureCNF dneFn := by
  intro t
  match t with
  | .not (.not x) =>
    right
    have := measureCNF_pos x
    simp only [dneFn, measureCNF]
    omega
  | .var i => left; rfl
  | .not (.var i) => left; rfl
  | .not (.and p q) => left; rfl
  | .not (.or p q) => left; rfl
  | .and p q => left; rfl
  | .or p q => left; rfl

theorem stepOK_dmOrFn_CNF : StepOK measureCNF dmOrFn := by
  intro t
  match t with
  | .not (.or x y) =>
    right
    have hx := measureCNF_pos x
    have hy := measureCNF_pos y
    simp only [dmOrFn, measureCNF]
    nlinarith
  | .var i => left; rfl
  | .not (.var i) => left; rfl
  | .not (.and p q) => left; rfl
  | .not (.not p) => left; rfl
  | .and p q => left; rfl
  | .or p q => left; rfl

theorem stepOK_distribOrAndFn_CNF : StepOK measureCNF distribOrAndFn := by
  intro t
  match t with
  | .or x (.and y z) =>
    right
    have hx := measureCNF_pos x
    simp only [distribOrAndFn, measureCNF]
    nlinarith
  | .var i => left; rfl
  | .not p => left; rfl
  | .and p q => left; rfl
  | .or p (.var i) => left; rfl
  | .or p (.not q) => left; rfl
  | .or p (.or q r) => left; rfl

theorem stepOK_cnfPass : StepOK measureCNF cnfPass := by
  have h := ((stepOK_dneFn_CNF.comp stepOK_dmOrFn_CNF).comp stepOK_dmOrFn_CNF).comp
    stepOK_distribOrAndFn_CNF
  exact h

theorem stepOK_dneFn_DNF : StepOK measureDNF dneFn := by
  intro t
  match t with
  | .not (.not x) =>
    right
    simp only [dneFn, measureDNF]
    calc measureDNF x < 2 ^ measureDNF x := Nat.lt_two_pow _
    _ < 2 ^ 2 ^ measureDNF x := Nat.pow_lt_pow_right (by omega) (Nat.lt_two_pow _)
  | .var i => left; rfl
  | .not (.var i) => left; rfl
  | .not (.and p q) => left; rfl
  | .not (.or p q) => left; rfl
  | .and p q => left; rfl
  | .or p q => left; rfl

theorem stepOK_dmOrFn_DNF : StepOK measureDNF dmOrFn := by
  intro t
  match t with
  | .not (.or x y) =>
    right
    simp only [dmOrFn, measureDNF]
    rw [← Nat.pow_add]
    exact Nat.pow_lt_pow_right (by omega) (by omega)
  | .var i => left; rfl
  | .not (.var i) => left; rfl
  | .not (.and p q) => left; rfl
  | .not (.not p) => left; rfl
  | .and p q => left; rfl
  | .or p q => left; rfl

theorem stepOK_dmAndFn_DNF : StepOK measureDNF dmAndFn := by
  intro t
  match t with
  | .not (.and x y) =>
    right
    have hx := measureDNF_pos x
    have hy := measureDNF_pos y
    simp only [dmAndFn, measureDNF]
    have hxp : (4 : Nat) ≤ 2 ^ measureDNF x := by
      calc (4 : Nat) = 2 ^ 2 := rfl
      _ ≤ 2 ^ measureDNF x := Nat.pow_le_pow_right (by omega) hx
    have hyp : (4 : Nat) ≤ 2 ^ measureDNF y := by
      calc (4 : Nat) = 2 ^ 2 := rfl
      _ ≤ 2 ^ measureDNF y := Nat.pow_le_pow_right (by omega) hy
    have hsum : measureDNF x + measureDNF y ≤ measureDNF x * measureDNF y := by nlinarith
    calc 2 ^ measureDNF x + 2 ^ measureDNF y + 1
        < 2 ^ measureDNF x * 2 ^ measureDNF y := by nlinarith
    _ = 2 ^ (measureDNF x + measureDNF y) := (Nat.pow_add 2 _ _).symm
    _ ≤ 2 ^ (measureDNF x * measureDNF y) := Nat.pow_le_pow_right (by omega) hsum
  | .var i => left; rfl
  | .not (.var i) => left; rfl
  | .not (.or p q) => left; rfl
  | .not (.not p) => left; rfl
  | .and p q => left; rfl
  | .or p q => left; rfl

theorem stepOK_distribAndOrFn_DNF : StepOK measureDNF distribAndOrFn := by
  intro t
  match t with
  | .and x (.or y z) =>
    right
    have hx := measureDNF_pos x
    simp only [distribAndOrFn, measureDNF]
    nlinarith
  | .var i => left; rfl
  | .not p => left; rfl
  | .or p q => left; rfl
  | .and p (.var i) => left; rfl
  | .and p (.not q) => left; rfl
  | .and p (.and q r) => left; rfl

theorem stepOK_dnfPass : StepOK measureDNF dnfPass := by
  have h := ((stepOK_dneFn_DNF.comp stepOK_dmOrFn_DNF).comp stepOK_dmAndFn_DNF).comp
    stepOK_distribAndOrFn_DNF
  exact h

/-! ### Evaluation preservation of the rule steps -/

theorem eval_dneFn (t : AST) (e : Nat → Bool) : (dneFn t).eval e = t.eval e := by
  match t with
  | .not (.not x) => simp [dneFn, ASTNode.eval]
  | .var i => rfl
  | .not (.var i) => rfl
  | .not (.and p q) => rfl
  | .not (.or p q) => rfl
  | .and p q => rfl
  | .or p q => rfl

theorem eval_dmOrFn (t : AST) (e : Nat → Bool) : (dmOrFn t).eval e = t.eval e := by
  match t with
  | .not (.or x y) =>
    simp only [dmOrFn, ASTNode.eval]
    cases x.eval e <;> cases y.eval e <;> rfl
  | .var i => rfl
  | .not (.var i) => rfl
  | .not (.and p q) => rfl
  | .not (.not p) => rfl
  | .and p q => rfl
  | .or p q => rfl

theorem eval_dmAndFn (t : AST) (e : Nat → Bool) : (dmAndFn t).eval e = t.eval e := by
  match t with
  | .not (.and x y) =>
    simp only [dmAndFn, ASTNode.eval]
    cases x.eval e <;> cases y.eval e <;> rfl
  | .var i => rfl
  | .not (.var i) => rfl
  | .not (.or p q) => rfl
  | .not (.not p) => rfl
  | .and p q => rfl
  | .or p q => rfl

theorem eval_distribOrAndFn (t : AST) (e : Nat → Bool) :
    (distribOrAndFn t).eval e = t.eval e := by
  match t with
  | .or x (.and y z) =>
    simp only [distribOrAndFn, ASTNode.eval]
    cases x.eval e <;> cases y.eval e <;> cases z.eval e <;> rfl
  | .var i => rfl
  | .not p => rfl
  | .and p q => rfl
  | .or p (.var i) => rfl
  | .or p (.not q) => rfl
  | .or p (.or q r) => rfl

theorem eval_distribAndOrFn (t : AST) (e : Nat → Bool) :
    (distribAndOrFn t).eval e = t.eval e := by
  match t with
  | .and x (.or y z) =>
    simp only [distribAndOrFn, ASTNode.eval]
    cases x.eval e <;> cases y.eval e <;> cases z.eval e <;> rfl
  | .var i => rfl
  | .not p => rfl
  | .or p q => rfl
  | .and p (.var i) => rfl
  | .and p (.not q) => rfl
  | .and p (.and q r) => rfl

theorem eval_cnfPass (t : AST) (e : Nat → Bool) : (cnfPass t).eval e = t.eval e := by
  simp [cnfPass, eval_distribOrAndFn, eval_dmOrFn, eval_dneFn]

theorem eval_dnfPass (t : AST) (e : Nat → Bool) : (dnfPass t).eval e = t.eval e := by
  simp [dnfPass, eval_distribAndOrFn, eval_dmAndFn, eval_dmOrFn, eval_dneFn]

/-! ### A common interface for the two rulesets

`RulesetModel` packages what the CNF and DNF rulesets share: a total
function computing the root pass, and a measure that every rule
strictly decreases, is strictly monotone in each position, and strictly
dominates the children.  The generic lemmas about `rewrite_recursive`
and the fixpoint hull are proved once against this interface. -/

structure RulesetModel where
  rs : RewriteRuleset
  pass : AST → AST
  meas : AST → Nat
  rewrite_eq : ∀ t, rs.rewrite t = some (pass t)
  pass_step : StepOK meas pass
  pass_eval : ∀ t e, ASTNode.eval (pass t) e = ASTNode.eval t e
  lt_not : ∀ p, meas p < meas (ASTNode.not p)
  lt_and_left : ∀ p q, meas p < meas (ASTNode.and p q)
  lt_and_right : ∀ p q, meas q < meas (ASTNode.and p q)
  lt_or_left : ∀ p q, meas p < meas (ASTNode.or p q)
  lt_or_right : ∀ p q, meas q < meas (ASTNode.or p q)
  mono_not : ∀ {p q}, meas p ≤ meas q → meas (ASTNode.not p) ≤ meas (ASTNode.not q)
  smono_not : ∀ {p q}, meas p < meas q → meas (ASTNode.not p) < meas (ASTNode.not q)
  mono_and : ∀ {p q p2 q2}, meas p ≤ meas p2 → meas q ≤ meas q2 →
    meas (ASTNode.and p q) ≤ meas (ASTNode.and p2 q2)
  smono_and : ∀ {p q p2 q2}, meas p ≤ meas p2 → meas q ≤ meas q2 →
    meas p < meas p2 ∨ meas q < meas q2 →
    meas (ASTNode.and p q) < meas (ASTNode.and p2 q2)
  mono_or : ∀ {p q p2 q2}, meas p ≤ meas p2 → meas q ≤ meas q2 →
    meas (ASTNode.or p q) ≤ meas (ASTNode.or p2 q2)
  smono_or : ∀ {p q p2 q2}, meas p ≤ meas p2 → meas q ≤ meas q2 →
    meas p < meas p2 ∨ meas q < meas q2 →
    meas (ASTNode.or p q) < meas (ASTNode.or p2 q2)

/-- The result of `rewrite_recursive` does not depend on the fuel, as
long as the fuel is large enough to produce a result at all. -/
theorem rewriteRecursive_mono (rs : RewriteRuleset) :
    ∀ n m t u, rs.rewriteRecursive n t = some u → n ≤ m →
      rs.rewriteRecursive m t = some u := by
  intro n
  induction n with
  | zero => intro m t u h; simp [RewriteRuleset.rewriteRecursive] at h
  | succ k ih =>
    intro m t u h hle
    cases m with
    | zero => omega
    | succ j =>
      have hkj : k ≤ j := by omega
      simp only [RewriteRuleset.rewriteRecursive] at h ⊢
      cases hrw : rs.rewrite t with
      | none => rw [hrw] at h; exact absurd h (by simp)
      | some s =>
        rw [hrw] at h
        cases s with
        | var i => exact h
        | not p =>
          simp only [bind, Option.bind_eq_some] at h ⊢
          obtain ⟨p', hp', rfl⟩ :
              ∃ p', rs.rewriteRecursive k p = some p' ∧ ASTNode.not p' = u := by
            rcases h with ⟨a, ha, hu⟩
            exact ⟨a, ha, by simpa using hu⟩
          exact ⟨p', ih j p p' hp' hkj, rfl⟩
        | and p q =>
          simp only [bind, Option.bind_eq_some] at h ⊢
          rcases h with ⟨p', hp', q', hq', hu⟩
          exact ⟨p', ih j p p' hp' hkj, q', ih j q q' hq' hkj, hu⟩
        | or p q =>
          simp only [bind, Option.bind_eq_some] at h ⊢
          rcases h with ⟨p', hp', q', hq', hu⟩
          exact ⟨p', ih j p p' hp' hkj, q', ih j q q' hq' hkj, hu⟩

/-- Whenever `rewrite_recursive` returns, its output weakly decreases
the measure, strictly unless it is the input itself, and evaluates like
the input. -/
theorem RulesetModel.rewriteRecursive_props (M : RulesetModel) :
    ∀ n t u, M.rs.rewriteRecursive n t = some u →
      M.meas u ≤ M.meas t ∧ (u = t ∨ M.meas u < M.meas t) ∧
        ∀ e, u.eval e = t.eval e := by
  intro n
  induction n with
  | zero => intro t u h; simp [RewriteRuleset.rewriteRecursive] at h
  | succ k ih =>
    intro t u h
    have hpassle : M.meas (M.pass t) ≤ M.meas t := M.pass_step.le t
    have hpasse : ∀ e, (M.pass t).eval e = t.eval e := M.pass_eval t
    simp only [RewriteRuleset.rewriteRecursive, M.rewrite_eq] at h
    cases hs : M.pass t with
    | var i =>
      rw [hs] at h
      obtain rfl : ASTNode.var i = u := by simpa using h
      rw [← hs]
      refine ⟨hpassle, ?_, hpasse⟩
      rcases M.pass_step t with hp | hp
      · exact Or.inl hp
      · exact Or.inr hp
    | not p =>
      rw [hs] at h
      simp only [bind, Option.bind_eq_some] at h
      rcases h with ⟨p', hp', hu⟩
      obtain rfl : ASTNode.not p' = u := by simpa using hu
      obtain ⟨h1, h2, h3⟩ := ih p p' hp'
      have hle : M.meas (ASTNode.not p') ≤ M.meas t := by
        calc M.meas (ASTNode.not p') ≤ M.meas (ASTNode.not p) := M.mono_not h1
        _ = M.meas (M.pass t) := by rw [hs]
        _ ≤ M.meas t := hpassle
      refine ⟨hle, ?_, ?_⟩
      · rcases M.pass_step t with hp | hp
        · rw [hs] at hp
          rcases h2 with h2a | h2b
          · exact Or.inl (by rw [h2a, hp])
          · refine Or.inr ?_
            calc M.meas (ASTNode.not p') < M.meas (ASTNode.not p) := M.smono_not h2b
            _ = M.meas t := by rw [hp]
        · refine Or.inr ?_
          calc M.meas (ASTNode.not p') ≤ M.meas (ASTNode.not p) := M.mono_not h1
          _ = M.meas (M.pass t) := by rw [hs]
          _ < M.meas t := hp
      · intro e
        have := hpasse e
        rw [hs] at this
        calc (ASTNode.not p').eval e = !(p'.eval e) := rfl
        _ = !(p.eval e) := by rw [h3 e]
        _ = (ASTNode.not p).eval e := rfl
        _ = t.eval e := this
    | and p q =>
      rw [hs] at h
      simp only [bind, Option.bind_eq_some] at h
      rcases h with ⟨p', hp', q', hq', hu⟩
      obtain rfl : ASTNode.and p' q' = u := by simpa using hu
      obtain ⟨h1p, h2p, h3p⟩ := ih p p' hp'
      obtain ⟨h1q, h2q, h3q⟩ := ih q q' hq'
      have hle : M.meas (ASTNode.and p' q') ≤ M.meas t := by
        calc M.meas (ASTNode.and p' q') ≤ M.meas (ASTNode.and p q) := M.mono_and h1p h1q
        _ = M.meas (M.pass t) := by rw [hs]
        _ ≤ M.meas t := hpassle
      refine ⟨hle, ?_, ?_⟩
      · rcases M.pass_step t with hp | hp
        · rw [hs] at hp
          rcases h2p with h2pa | h2pb
          · rcases h2q with h2qa | h2qb
            · exact Or.inl (by rw [h2pa, h2qa, hp])
            · refine Or.inr ?_
              calc M.meas (ASTNode.and p' q')
                  < M.meas (ASTNode.and p q) := M.smono_and h1p h1q (Or.inr h2qb)
              _ = M.meas t := by rw [hp]
          · refine Or.inr ?_
            calc M.meas (ASTNode.and p' q')
                < M.meas (ASTNode.and p q) := M.smono_and h1p h1q (Or.inl h2pb)
            _ = M.meas t := by rw [hp]
        · refine Or.inr ?_
          calc M.meas (ASTNode.and p' q') ≤ M.meas (ASTNode.and p q) := M.mono_and h1p h1q
          _ = M.meas (M.pass t) := by rw [hs]
          _ < M.meas t := hp
      · intro e
        have := hpasse e
        rw [hs] at this
        calc (ASTNode.and p' q').eval e = (p'.eval e && q'.eval e) := rfl
        _ = (p.eval e && q.eval e) := by rw [h3p e, h3q e]
        _ = (ASTNode.and p q).eval e := rfl
        _ = t.eval e := this
    | or p q =>
      rw [hs] at h
      simp only [bind, Option.bind_eq_some] at h
      rcases h with ⟨p', hp', q', hq', hu⟩
      obtain rfl : ASTNode.or p' q' = u := by simpa using hu
      obtain ⟨h1p, h2p, h3p⟩ := ih p p' hp'
      obtain ⟨h1q, h2q, h3q⟩ := ih q q' hq'
      have hle : M.meas (ASTNode.or p' q') ≤ M.meas t := by
        calc M.meas (ASTNode.or p' q') ≤ M.meas (ASTNode.or p q) := M.mono_or h1p h1q
        _ = M.meas (M.pass t) := by rw [hs]
        _ ≤ M.meas t := hpassle
      refine ⟨hle, ?_, ?_⟩
      · rcases M.pass_step t with hp | hp
        · rw [hs] at hp
          rcases h2p with h2pa | h2pb
          · rcases h2q with h2qa | h2qb
            · exact Or.inl (by rw [h2pa, h2qa, hp])
            · refine Or.inr ?_
              calc M.meas (ASTNode.or p' q')
                  < M.meas (ASTNode.or p q) := M.smono_or h1p h1q (Or.inr h2qb)
              _ = M.meas t := by rw [hp]
          · refine Or.inr ?_
            calc M.meas (ASTNode.or p' q')
                < M.meas (ASTNode.or p q) := M.smono_or h1p h1q (Or.inl h2pb)
            _ = M.meas t := by rw [hp]
        · refine Or.inr ?_
          calc M.meas (ASTNode.or p' q') ≤ M.meas (ASTNode.or p q) := M.mono_or h1p h1q
          _ = M.meas (M.pass t) := by rw [hs]
          _ < M.meas t := hp
      · intro e
        have := hpasse e
        rw [hs] at this
        calc (ASTNode.or p' q').eval e = (p'.eval e || q'.eval e) := rfl
        _ = (p.eval e || q.eval e) := by rw [h3p e, h3q e]
        _ = (ASTNode.or p q).eval e := rfl
        _ = t.eval e := this

/-- Fuel exceeding the measure suffices for `rewrite_recursive`: the
recursion depth is bounded because children strictly decrease the
measure. -/
theorem RulesetModel.rewriteRecursive_some (M : RulesetModel) :
    ∀ n t, M.meas t < n → ∃ u, M.rs.rewriteRecursive n t = some u := by
  intro n
  induction n with
  | zero => intro t h; omega
  | succ k ih =>
    intro t h
    have hpassle : M.meas (M.pass t) ≤ M.meas t := M.pass_step.le t
    cases hs : M.pass t with
    | var i =>
      exact ⟨ASTNode.var i, by simp [RewriteRuleset.rewriteRecursive, M.rewrite_eq, hs]⟩
    | not p =>
      have hp : M.meas p < k := by
        have := M.lt_not p
        rw [← hs] at this
        omega
      obtain ⟨p', hp'⟩ := ih p hp
      exact ⟨ASTNode.not p',
        by simp [RewriteRuleset.rewriteRecursive, M.rewrite_eq, hs, hp', bind]⟩
    | and p q =>
      have hmp : M.meas p < k := by
        have := M.lt_and_left p q
        rw [← hs] at this
        omega
      have hmq : M.meas q < k := by
        have := M.lt_and_right p q
        rw [← hs] at this
        omega
      obtain ⟨p', hp'⟩ := ih p hmp
      obtain ⟨q', hq'⟩ := ih q hmq
      exact ⟨ASTNode.and p' q',
        by simp [RewriteRuleset.rewriteRecursive, M.rewrite_eq, hs, hp', hq', bind]⟩
    | or p q =>
      have hmp : M.meas p < k := by
        have := M.lt_or_left p q
        rw [← hs] at this
        omega
      have hmq : M.meas q < k := by
        have := M.lt_or_right p q
        rw [← hs] at this
        omega
      obtain ⟨p', hp'⟩ := ih p hmp
      obtain ⟨q', hq'⟩ := ih q hmq
      exact ⟨ASTNode.or p' q',
        by simp [RewriteRuleset.rewriteRecursive, M.rewrite_eq, hs, hp', hq', bind]⟩

/-- Every value the hull returns is a fixpoint of `rewrite_recursive`,
weakly smaller in measure, and evaluates like the input. -/
theorem RulesetModel.hull_inv (M : RulesetModel) :
    ∀ k d t g, M.rs.rewriteRecursiveHull d k t = some g →
      M.rs.rewriteRecursive d g = some g ∧ M.meas g ≤ M.meas t ∧
        ∀ e, g.eval e = t.eval e := by
  intro k
  induction k with
  | zero => intro d t g h; simp [RewriteRuleset.rewriteRecursiveHull] at h
  | succ j ih =>
    intro d t g h
    simp only [RewriteRuleset.rewriteRecursiveHull] at h
    cases hr : M.rs.rewriteRecursive d t with
    | none => rw [hr] at h; exact absurd h (by simp)
    | some new =>
      rw [hr] at h
      change (if new = t then some t else M.rs.rewriteRecursiveHull d j new) = some g at h
      by_cases hnt : new = t
      · rw [if_pos hnt] at h
        obtain rfl : t = g := by simpa using h
        rw [hnt] at hr
        exact ⟨hr, le_refl _, fun e => rfl⟩
      · rw [if_neg hnt] at h
        obtain ⟨hfix, hle, heval⟩ := ih d new g h
        obtain ⟨hle2, _, heval2⟩ := M.rewriteRecursive_props d t new hr
        exact ⟨hfix, le_trans hle hle2, fun e => (heval e).trans (heval2 e)⟩

/-- Loop fuel and depth fuel exceeding the measure suffice for the
hull: each productive iteration strictly decreases the measure. -/
theorem RulesetModel.hull_some (M : RulesetModel) :
    ∀ k t, M.meas t < k → ∀ d, M.meas t < d →
      ∃ g, M.rs.rewriteRecursiveHull d k t = some g := by
  intro k
  induction k with
  | zero => intro t h; omega
  | succ j ih =>
    intro t hk d hd
    obtain ⟨new, hr⟩ := M.rewriteRecursive_some d t hd
    by_cases hnt : new = t
    · exact ⟨t, by simp [RewriteRuleset.rewriteRecursiveHull, hr, hnt]⟩
    · obtain ⟨_, hdisj, _⟩ := M.rewriteRecursive_props d t new hr
      have hlt : M.meas new < M.meas t := by
        rcases hdisj with h1 | h1
        · exact absurd h1 hnt
        · exact h1
      obtain ⟨g, hg⟩ := ih new (by omega) d (by omega)
      exact ⟨g, by simp [RewriteRuleset.rewriteRecursiveHull, hr, hnt, hg]⟩

/-- The CNF ruleset together with its pass function and measure. -/
def cnfModel : RulesetModel where
  rs := cnfRuleset
  pass := cnfPass
  meas := measureCNF
  rewrite_eq := cnfRuleset_rewrite
  pass_step := stepOK_cnfPass
  pass_eval := eval_cnfPass
  lt_not := fun p => by
    have := measureCNF_pos p
    simp only [measureCNF]
    omega
  lt_and_left := fun p q => by simp only [measureCNF]; omega
  lt_and_right := fun p q => by simp only [measureCNF]; omega
  lt_or_left := fun p q => by
    have hp := measureCNF_pos p
    have hq := measureCNF_pos q
    simp only [measureCNF]
    nlinarith
  lt_or_right := fun p q => by
    have hp := measureCNF_pos p
    have hq := measureCNF_pos q
    simp only [measureCNF]
    nlinarith
  mono_not := fun h => by simp only [measureCNF]; omega
  smono_not := fun h => by simp only [measureCNF]; omega
  mono_and := fun h1 h2 => by simp only [measureCNF]; omega
  smono_and := fun h1 h2 h3 => by simp only [measureCNF]; omega
  mono_or := fun h1 h2 => by
    simp only [measureCNF]
    exact Nat.mul_le_mul h1 h2
  smono_or := fun {p q p2 q2} h1 h2 h3 => by
    have hq := measureCNF_pos q
    have hp2 := measureCNF_pos p2
    have hq2 := measureCNF_pos q2
    simp only [measureCNF]
    have hp := measureCNF_pos p
    rcases h3 with h3 | h3
    · nlinarith
    · nlinarith

/-- The DNF ruleset together with its pass function and measure. -/
def dnfModel : RulesetModel where
  rs := dnfRuleset
  pass := dnfPass
  meas := measureDNF
  rewrite_eq := dnfRuleset_rewrite
  pass_step := stepOK_dnfPass
  pass_eval := eval_dnfPass
  lt_not := fun p => by
    simp only [measureDNF]
    exact Nat.lt_two_pow _
  lt_and_left := fun p q => by
    have hp := measureDNF_pos p
    have hq := measureDNF_pos q
    simp only [measureDNF]
    nlinarith
  lt_and_right := fun p q => by
    have hp := measureDNF_pos p
    have hq := measureDNF_pos q
    simp only [measureDNF]
    nlinarith
  lt_or_left := fun p q => by simp only [measureDNF]; omega
  lt_or_right := fun p q => by simp only [measureDNF]; omega
  mono_not := fun h => by
    simp only [measureDNF]
    exact Nat.pow_le_pow_right (by omega) h
  smono_not := fun h => by
    simp only [measureDNF]
    exact Nat.pow_lt_pow_right (by omega) h
  mono_and := fun h1 h2 => by
    simp only [measureDNF]
    exact Nat.mul_le_mul h1 h2
  smono_and := fun {p q p2 q2} h1 h2 h3 => by
    have hq := measureDNF_pos q
    have hp := measureDNF_pos p
    have hp2 := measureDNF_pos p2
    have hq2 := measureDNF_pos q2
    simp only [measureDNF]
    rcases h3 with h3 | h3
    · nlinarith
    · nlinarith
  mono_or := fun h1 h2 => by simp only [measureDNF]; omega
  smono_or := fun h1 h2 h3 => by simp only [measureDNF]; omega

theorem cnf_total (f : AST) : ∃ g, f.cnf = some g :=
  cnfModel.hull_some (measureCNF f + 1) f (Nat.lt_succ_self (measureCNF f))
    (measureCNF f + 1) (Nat.lt_succ_self (measureCNF f))

theorem dnf_total (f : AST) : ∃ g, f.dnf = some g :=
  dnfModel.hull_some (measureDNF f + 1) f (Nat.lt_succ_self (measureDNF f))
    (measureDNF f + 1) (Nat.lt_succ_self (measureDNF f))

theorem cnf_inv (f g : AST) (h : f.cnf = some g) :
    cnfRuleset.rewriteRecursive (measureCNF f + 1) g = some g ∧
      measureCNF g ≤ measureCNF f ∧ ∀ e, g.eval e = f.eval e :=
  cnfModel.hull_inv (measureCNF f + 1) (measureCNF f + 1) f g h

theorem dnf_inv (f g : AST) (h : f.dnf = some g) :
    dnfRuleset.rewriteRecursive (measureDNF f + 1) g = some g ∧
      measureDNF g ≤ measureDNF f ∧ ∀ e, g.eval e = f.eval e :=
  dnfModel.hull_inv (measureDNF f + 1) (measureDNF f + 1) f g h

/-! ### Shape of CNF fixpoints

A fixpoint of the *coded* CNF ruleset contains no `¬¬x`, no `¬(x∨y)`
and no `x∨(y∧z)` redex.  (It may well contain `¬(x∧y)` — the source
ruleset lacks De Morgan for conjunction — and nested disjunctions.) -/

/-- No subterm is a redex of the coded CNF ruleset. -/
def redexFreeCNF : AST → Bool
  | .var _ => true
  | .not (.not _) => false
  | .not (.or _ _) => false
  | .not p => redexFreeCNF p
  | .or _ (.and _ _) => false
  | .or p q => redexFreeCNF p && redexFreeCNF q
  | .and p q => redexFreeCNF p && redexFreeCNF q

theorem cnfPass_lt_dne (x : AST) :
    measureCNF (cnfPass (.not (.not x))) < measureCNF (.not (.not x)) := by
  have h1 : cnfPass (.not (.not x)) = distribOrAndFn (dmOrFn (dmOrFn x)) := rfl
  rw [h1]
  have h2 := stepOK_distribOrAndFn_CNF.le (dmOrFn (dmOrFn x))
  have h3 := stepOK_dmOrFn_CNF.le (dmOrFn x)
  have h4 := stepOK_dmOrFn_CNF.le x
  have hx := measureCNF_pos x
  simp only [measureCNF]
  omega

theorem cnfPass_lt_dmOr (a b : AST) :
    measureCNF (cnfPass (.not (.or a b))) < measureCNF (.not (.or a b)) := by
  have h1 : cnfPass (.not (.or a b))
      = distribOrAndFn (dmOrFn (.and (.not a) (.not b))) := rfl
  rw [h1]
  have h2 := stepOK_distribOrAndFn_CNF.le (dmOrFn (.and (.not a) (.not b)))
  have h3 := stepOK_dmOrFn_CNF.le (.and (.not a) (.not b))
  have ha := measureCNF_pos a
  have hb := measureCNF_pos b
  simp only [measureCNF] at *
  nlinarith

theorem cnfPass_lt_distrib (x y z : AST) :
    measureCNF (cnfPass (.or x (.and y z))) < measureCNF (.or x (.and y z)) := by
  have h1 : cnfPass (.or x (.and y z))
      = .and (.or x y) (.or x z) := rfl
  rw [h1]
  have hx := measureCNF_pos x
  simp only [measureCNF]
  nlinarith

/-- A term on which one recursive pass of the CNF ruleset is the
identity is redex-free everywhere. -/
theorem cnf_fix_redexFree :
    ∀ n t, cnfRuleset.rewriteRecursive n t = some t → redexFreeCNF t = true := by
  intro n
  induction n with
  | zero => intro t h; simp [RewriteRuleset.rewriteRecursive] at h
  | succ k ih =>
    intro t h
    have hrw : cnfRuleset.rewrite t = some (cnfPass t) := cnfRuleset_rewrite t
    simp only [RewriteRuleset.rewriteRecursive, hrw] at h
    cases hs : cnfPass t with
    | var i =>
      rw [hs] at h
      obtain rfl : ASTNode.var i = t := by simpa using h
      rfl
    | not p =>
      rw [hs] at h
      simp only [bind, Option.bind_eq_some] at h
      rcases h with ⟨p', hp', hu⟩
      have ht : t = ASTNode.not p' := by
        simp [eq_comm] at hu
        exact hu
      -- the pass is the identity at t, else the measure of t would
      -- strictly exceed itself
      have hple : measureCNF p' ≤ measureCNF p :=
        (cnfModel.rewriteRecursive_props k p p' hp').1
      have hfix : cnfPass t = t := by
        rcases stepOK_cnfPass t with hp | hp
        · exact hp
        · exfalso
          have hmt : measureCNF t = 2 * measureCNF p' := by rw [ht]; rfl
          have hms : measureCNF (cnfPass t) = 2 * measureCNF p := by rw [hs]; rfl
          omega
      have hpt : p = p' := by
        have : ASTNode.not p = ASTNode.not p' := by rw [← hs, hfix, ht]
        injection this
      subst hpt
      have hfree : redexFreeCNF p = true := ih p hp'
      rw [ht]
      -- rule out a root redex using the strict measure decrease lemmas
      cases p with
      | var i => simp [redexFreeCNF]
      | not q =>
        exfalso
        have := cnfPass_lt_dne q
        rw [← ht, hfix] at this
        omega
      | and a b => simpa [redexFreeCNF] using hfree
      | or a b =>
        exfalso
        have := cnfPass_lt_dmOr a b
        rw [← ht, hfix] at this
        omega
    | and p q =>
      rw [hs] at h
      simp only [bind, Option.bind_eq_some] at h
      rcases h with ⟨p', hp', q', hq', hu⟩
      have ht : t = ASTNode.and p' q' := by simpa [eq_comm] using hu
      have hple : measureCNF p' ≤ measureCNF p :=
        (cnfModel.rewriteRecursive_props k p p' hp').1
      have hqle : measureCNF q' ≤ measureCNF q :=
        (cnfModel.rewriteRecursive_props k q q' hq').1
      have hfix : cnfPass t = t := by
        rcases stepOK_cnfPass t with hp | hp
        · exact hp
        · exfalso
          have hmt : measureCNF t = measureCNF p' + measureCNF q' + 1 := by rw [ht]; rfl
          have hms : measureCNF (cnfPass t) = measureCNF p + measureCNF q + 1 := by
            rw [hs]; rfl
          omega
      have hpq : p = p' ∧ q = q' := by
        have : ASTNode.and p q = ASTNode.and p' q' := by rw [← hs, hfix, ht]
        exact ⟨by injection this, by injection this⟩
      obtain ⟨rfl, rfl⟩ : p = p' ∧ q = q' := hpq
      rw [ht]
      simp [redexFreeCNF, ih p hp', ih q hq']
    | or p q =>
      rw [hs] at h
      simp only [bind, Option.bind_eq_some] at h
      rcases h with ⟨p', hp', q', hq', hu⟩
      have ht : t = ASTNode.or p' q' := by simpa [eq_comm] using hu
      have hple : measureCNF p' ≤ measureCNF p :=
        (cnfModel.rewriteRecursive_props k p p' hp').1
      have hqle : measureCNF q' ≤ measureCNF q :=
        (cnfModel.rewriteRecursive_props k q q' hq').1
      have hppos := measureCNF_pos p
      have hqpos := measureCNF_pos q
      have hp2pos := measureCNF_pos p'
      have hq2pos := measureCNF_pos q'
      have hfix : cnfPass t = t := by
        rcases stepOK_cnfPass t with hp | hp
        · exact hp
        · exfalso
          have hmt : measureCNF t = measureCNF p' * measureCNF q' := by rw [ht]; rfl
          have hms : measureCNF (cnfPass t) = measureCNF p * measureCNF q := by
            rw [hs]; rfl
          nlinarith
      have hpq : p = p' ∧ q = q' := by
        have : ASTNode.or p q = ASTNode.or p' q' := by rw [← hs, hfix, ht]
        exact ⟨by injection this, by injection this⟩
      obtain ⟨rfl, rfl⟩ : p = p' ∧ q = q' := hpq
      rw [ht]
      -- the right child of a fixpoint disjunction cannot be a
      -- conjunction: that is a distributivity redex
      cases hq : q with
      | and a b =>
        exfalso
        have := cnfPass_lt_distrib p a b
        rw [← hq, ← ht, hfix] at this
        have hmt : measureCNF t = measureCNF p * measureCNF q := by rw [ht]; rfl
        omega
      | var i =>
        have h1 := ih p hp'
        have h2 := ih q hq'
        rw [hq] at h2
        simp [redexFreeCNF, h1, h2]
      | not a =>
        have h1 := ih p hp'
        have h2 := ih q hq'
        rw [hq] at h2
        simp [redexFreeCNF, h1, h2]
      | or a b =>
        have h1 := ih p hp'
        have h2 := ih q hq'
        rw [hq] at h2
        simp [redexFreeCNF, h1, h2]

/-! ### The CNF shape predicate exactly as the specification words it

These two predicates are written from the specification sentence
"no `Or` node is a descendant of another `Or` without an intervening
`And`; the child of every `Not` node is a bare `Variable`" (they are the
claim of the spec, not code of the repository), to be compared with what
`cnf` actually produces. -/

mutual
/-- Inside a disjunction and not yet past an `and`: no `or` allowed. -/
def specOrFreeUntilAnd : AST → Bool
  | .var _ => true
  | .not p => specOrFreeUntilAnd p
  | .and p q => specNoNestedOr p && specNoNestedOr q
  | .or _ _ => false

/-- No `or` is a descendant of another `or` without an intervening
`and`. -/
def specNoNestedOr : AST → Bool
  | .var _ => true
  | .not p => specNoNestedOr p
  | .and p q => specNoNestedOr p && specNoNestedOr q
  | .or p q => specOrFreeUntilAnd p && specOrFreeUntilAnd q
end

/-- The child of every `not` node is a bare variable. -/
def specNotChildVar : AST → Bool
  | .var _ => true
  | .not (.var _) => true
  | .not _ => false
  | .and p q => specNotChildVar p && specNotChildVar q
  | .or p q => specNotChildVar p && specNotChildVar q

/-- The CNF shape predicate claimed by the specification. -/
def specCNFShape (t : AST) : Bool := specNoNestedOr t && specNotChildVar t

/-! ### Concrete inputs used by the claims -/

/-- `(a ∨ b) ∧ (a ∨ ¬b) ∧ (¬a ∨ b) ∧ (¬a ∨ ¬b)` with `a = var 0`,
`b = var 1`: unsatisfiable, already a fixpoint of the CNF ruleset. -/
def fUnsat2 : AST :=
  .and (.and (.or (.var 0) (.var 1)) (.or (.var 0) (.not (.var 1))))
    (.and (.or (.not (.var 0)) (.var 1)) (.or (.not (.var 0)) (.not (.var 1))))

/-- The `main.rs` scenario formula
`¬¬(((¬(c∨d) ∧ (a∨¬¬b)) ∧ ¬a) ∧ ¬b)`; the `propositional_logic!`
macro numbers identifiers in order of first appearance: `c = var 0`,
`d = var 1`, `a = var 2`, `b = var 3`. -/
def fScenario : AST :=
  .not (.not (.and (.and (.and (.not (.or (.var 0) (.var 1)))
    (.or (.var 2) (.not (.not (.var 3))))) (.not (.var 2))) (.not (.var 3))))

/-- Clause set `{{a, b}, {¬a, b}, {a, ¬b}}` (`a = 0`, `b = 1`): every
literal in it has its negation occurring, so none of its literals is
pure. -/
def csPLE : List Clause :=
  [[⟨0, .positive⟩, ⟨1, .positive⟩], [⟨0, .negative⟩, ⟨1, .positive⟩],
    [⟨0, .positive⟩, ⟨1, .negative⟩]]

/-! ### The claims -/

/-- C1: the claim says `is_satisfiable(f)` matches brute-force
enumeration for every formula over at most 8 variables.  It does not:
on the unsatisfiable two-variable formula `fUnsat2` the pipeline
returns `true` (the broken pure-literal elimination step deletes every
clause), while every assignment evaluates the formula to `false`. -/
theorem C1_sat_diverges_from_bruteforce :
    ASTNode.sat fUnsat2 = some true ∧
      ∀ env : Nat → Bool, ASTNode.eval fUnsat2 env = false := by
  constructor
  · decide
  · intro env
    cases h0 : env 0 <;> cases h1 : env 1 <;>
      simp [fUnsat2, ASTNode.eval, h0, h1]

/-- C2: semantic preservation — whenever `cnf` (resp. `dnf`) returns a
formula, it evaluates identically to the input under every
assignment. -/
theorem C2_semantic_preservation (f g : AST) (e : Nat → Bool) :
    (f.cnf = some g → g.eval e = f.eval e) ∧
      (f.dnf = some g → g.eval e = f.eval e) :=
  ⟨fun h => (cnf_inv f g h).2.2 e, fun h => (dnf_inv f g h).2.2 e⟩

theorem C2_semantic_preservation_witness :
    (ASTNode.cnf (.not (.not (.var 0))) = some (.var 0) ∧
      ASTNode.eval (.var 0) (fun _ => true)
        = ASTNode.eval (.not (.not (.var 0))) (fun _ => true)) ∧
    (ASTNode.dnf (.not (.not (.var 0))) = some (.var 0) ∧
      ASTNode.eval (.var 0) (fun _ => true)
        = ASTNode.eval (.not (.not (.var 0))) (fun _ => true)) :=
  ⟨⟨by decide, (C2_semantic_preservation (.not (.not (.var 0))) (.var 0)
      (fun _ => true)).1 (by decide)⟩,
    ⟨by decide, (C2_semantic_preservation (.not (.not (.var 0))) (.var 0)
      (fun _ => true)).2 (by decide)⟩⟩

/-- C3: the claim says the CNF ruleset consists of double negation,
De Morgan for disjunction, De Morgan for conjunction and
distributivity, so one root pass turns `¬(a∧b)` into `¬a∨¬b`.  In the
source the third rule is a verbatim duplicate of the second (De Morgan
for disjunction); no rule of the ruleset has De Morgan-for-conjunction
as its pattern, and a root pass leaves `¬(a∧b)` unchanged. -/
theorem C3_cnf_ruleset_misses_de_morgan_and :
    cnfRuleset.rules[2]? = cnfRuleset.rules[1]? ∧
      (∀ r ∈ cnfRuleset.rules, r.top ≠ deMorganAndRule.top) ∧
      cnfRuleset.rewrite (.not (.and (.var 0) (.var 1)))
        = some (.not (.and (.var 0) (.var 1))) := by
  refine ⟨rfl, ?_, by decide⟩
  decide

/-- C4 (counterexample): the claimed CNF shape fails.  `a∨(b∨c)` is its
own `cnf` image yet has an `or` under an `or` with no `and` between,
and `¬(a∧b)` is its own `cnf` image yet has a `not` whose child is no
variable. -/
theorem C4_counterexample :
    ASTNode.cnf (.or (.var 0) (.or (.var 1) (.var 2)))
        = some (.or (.var 0) (.or (.var 1) (.var 2))) ∧
      specCNFShape (.or (.var 0) (.or (.var 1) (.var 2))) = false ∧
      ASTNode.cnf (.not (.and (.var 0) (.var 1)))
        = some (.not (.and (.var 0) (.var 1))) ∧
      specCNFShape (.not (.and (.var 0) (.var 1))) = false := by
  refine ⟨by decide, by decide, by decide, by decide⟩

/-- C4 (amended): what `cnf` does guarantee about shape is
redex-freeness of its fixpoint — the output contains no `¬¬x`, no
`¬(x∨y)` and no `x∨(y∧z)` subterm; `¬(x∧y)` subterms and nested
disjunctions may remain. -/
theorem C4_cnf_output_redex_free (f g : AST) (h : f.cnf = some g) :
    redexFreeCNF g = true :=
  cnf_fix_redexFree (measureCNF f + 1) g (cnf_inv f g h).1

theorem C4_cnf_output_redex_free_witness :
    ASTNode.cnf (.not (.not (.var 0))) = some (.var 0) ∧
      redexFreeCNF (.var 0) = true :=
  ⟨by decide, C4_cnf_output_redex_free (.not (.not (.var 0))) (.var 0) (by decide)⟩

/-- C5: the claim describes standard pure-literal elimination.  The
source step instead keeps exactly the clauses containing every
occurring literal: on `csPLE`, where no literal is pure (each has its
negation occurring, second conjunct), the claim requires all three
clauses to survive, but the step deletes all of them. -/
theorem C5_pure_literal_elimination_deletes_everything :
    pureLiteralElimination csPLE = [] ∧
      (csPLE.all fun c => c.all fun l => csPLE.any fun c2 => l.not ∈ c2) = true := by
  refine ⟨by decide, by decide⟩

/-- C6 (counterexample): the claim says the all-false assignment
satisfies the `main.rs` scenario formula and `sat` returns `true`; in
fact the formula evaluates to `false` there and `sat` returns
`false`. -/
theorem C6_counterexample :
    ASTNode.eval fScenario (fun _ => false) = false ∧
      ASTNode.sat fScenario = some false := by
  refine ⟨by decide, by decide⟩

/-- C6 (amended): the scenario formula is unsatisfiable — every
assignment falsifies it (its core is `(a∨b) ∧ ¬a ∧ ¬b`) — and the
pipeline correctly answers `false` on it. -/
theorem C6_scenario_unsatisfiable :
    (∀ env : Nat → Bool, ASTNode.eval fScenario env = false) ∧
      ASTNode.sat fScenario = some false := by
  constructor
  · intro env
    cases h0 : env 0 <;> cases h1 : env 1 <;> cases h2 : env 2 <;> cases h3 : env 3 <;>
      simp [fScenario, ASTNode.eval, h0, h1, h2, h3]
  · decide

theorem cnf_fix (f g : AST) (h : f.cnf = some g) : g.cnf = some g := by
  have hfix := (cnf_inv f g h).1
  have hle := (cnf_inv f g h).2.1
  obtain ⟨u, hu⟩ :=
    cnfModel.rewriteRecursive_some (measureCNF g + 1) g (Nat.lt_succ_self (measureCNF g))
  have hmono := rewriteRecursive_mono cnfRuleset (measureCNF g + 1) (measureCNF f + 1)
    g u hu (by omega)
  have hug : u = g := by
    rw [hmono] at hfix
    exact Option.some.inj hfix
  rw [hug] at hu
  have hu2 : cnfRuleset.rewriteRecursive (measureCNF g + 1) g = some g := hu
  simp [ASTNode.cnf, RewriteRuleset.rewriteRecursiveHull, hu2]

theorem dnf_fix (f g : AST) (h : f.dnf = some g) : g.dnf = some g := by
  have hfix := (dnf_inv f g h).1
  have hle := (dnf_inv f g h).2.1
  obtain ⟨u, hu⟩ :=
    dnfModel.rewriteRecursive_some (measureDNF g + 1) g (Nat.lt_succ_self (measureDNF g))
  have hmono := rewriteRecursive_mono dnfRuleset (measureDNF g + 1) (measureDNF f + 1)
    g u hu (by omega)
  have hug : u = g := by
    rw [hmono] at hfix
    exact Option.some.inj hfix
  rw [hug] at hu
  have hu2 : dnfRuleset.rewriteRecursive (measureDNF g + 1) g = some g := hu
  simp [ASTNode.dnf, RewriteRuleset.rewriteRecursiveHull, hu2]

/-- C7: idempotence — applying `cnf` (resp. `dnf`) to its own output
reproduces the output, structurally.  The hull only returns values that
one more recursive pass leaves unchanged, so the second run exits its
loop on the first iteration. -/
theorem C7_idempotence (f : AST) :
    (f.cnf).bind ASTNode.cnf = f.cnf ∧ (f.dnf).bind ASTNode.dnf = f.dnf := by
  constructor
  · obtain ⟨g, hg⟩ := cnf_total f
    rw [hg, Option.some_bind]
    exact cnf_fix f g hg
  · obtain ⟨g, hg⟩ := dnf_total f
    rw [hg, Option.some_bind]
    exact dnf_fix f g hg

/-- C8: `cnf` and `dnf` terminate on every input — with fuel one more
than the measure (which every applicable rule strictly decreases) the
fixpoint loop returns a formula that a further recursive pass leaves
unchanged. -/
theorem C8_termination (f : AST) :
    ∃ g h, f.cnf = some g ∧
      cnfRuleset.rewriteRecursive (measureCNF f + 1) g = some g ∧
      f.dnf = some h ∧
      dnfRuleset.rewriteRecursive (measureDNF f + 1) h = some h := by
  obtain ⟨g, hg⟩ := cnf_total f
  obtain ⟨h2, hh⟩ := dnf_total f
  exact ⟨g, h2, hg, (cnf_inv f g hg).1, hh, (dnf_inv f h2 hh).1⟩

/-- C9: pattern matching is attempted against the whole root node only
— for every rule and every target (whatever the subtrees of the target
contain), a failed root match makes `rewrite` return the target
unchanged, silently. -/
theorem C9_failed_match_is_noop (r : RewriteRule) (t : AST)
    (h : RewriteRule.matching t r.top = none) : r.rewrite t = some t := by
  simp [RewriteRule.rewrite, h]

theorem C9_failed_match_is_noop_witness :
    RewriteRule.matching (ASTNode.or (.not (.not (.var 0))) (.var 1))
        doubleNegationRule.top = none ∧
      doubleNegationRule.rewrite (ASTNode.or (.not (.not (.var 0))) (.var 1))
        = some (ASTNode.or (.not (.not (.var 0))) (.var 1)) :=
  ⟨by decide, C9_failed_match_is_noop doubleNegationRule
    (ASTNode.or (.not (.not (.var 0))) (.var 1)) (by decide)⟩

/-- C10: there are well-formed inputs on which the `sat` pipeline hits
the `unreachable!()` branch of clause extraction instead of returning a
boolean: `(a∧b)∨c` (no rule distributes over a conjunction on the left
of a disjunction) and `¬(a∧b)` (not normalized, because the CNF ruleset
lacks De Morgan for conjunction) are both their own `cnf` images, and
clause extraction fails on each. -/
theorem C10_sat_panics_on_unhandled_shapes :
    ASTNode.cnf (.or (.and (.var 0) (.var 1)) (.var 2))
        = some (.or (.and (.var 0) (.var 1)) (.var 2)) ∧
      generateClausesFromTree (.or (.and (.var 0) (.var 1)) (.var 2)) = none ∧
      ASTNode.sat (.or (.and (.var 0) (.var 1)) (.var 2)) = none ∧
      ASTNode.cnf (.not (.and (.var 0) (.var 1)))
        = some (.not (.and (.var 0) (.var 1))) ∧
      generateClausesFromTree (.not (.and (.var 0) (.var 1))) = none ∧
      ASTNode.sat (.not (.and (.var 0) (.var 1))) = none := by
  refine ⟨by decide, by decide, by decide, by decide, by decide, by decide⟩
